import Mathlib

/-! # Verification of the RTL subtitle fixer (fixer.py)

A shallow embedding of `fixer.py` (an SRT subtitle repair tool for
right-to-left text).  Python strings are modelled as `List Char`; the
regex operations of `fix_line` are embedded by their documented
semantics on the concrete patterns the source builds, and the SRT
parser and writer as explicit state-machine functions.
-/

namespace RtlFixer

/-- Python strings are modelled as lists of characters. -/
abbrev Str := List Char

/-- The contents of the Python raw string
`SPECIAL_CHARS_RE_SET = r'.,:;\'()\-?!+=*&$^%#@~` " \/'` (fixer.py line 6):
27 characters, three of which are backslashes that act as regex escapes
when the string is interpolated into a character class. -/
def SPECIAL_CHARS_RE_SET : Str := (".,:;\\'()\\-?!+=*&$^%#@~`\" \\/").toList

/-- The set of characters denoted by a regex character class body: a
backslash escapes the character after it (for the escapes occurring in
`SPECIAL_CHARS_RE_SET` - a quote, a dash and a slash - the escaped
character denotes itself literally). -/
def classChars : Str → List Char
  | [] => []
  | '\\' :: c :: rest => c :: classChars rest
  | ['\\'] => []
  | c :: rest => c :: classChars rest

/-- Membership in the character class `[{SPECIAL_CHARS_RE_SET}]` used by
both regexes of `fix_line` (fixer.py lines 114-115). -/
def isSpecial (c : Char) : Bool := (classChars SPECIAL_CHARS_RE_SET).contains c

/-- The group of `re.search(f"^([{SPECIAL_CHARS_RE_SET}]*)", line)`
(fixer.py line 114): the pattern is anchored at the start and the starred
class is greedy, so the group is the longest run of special characters
from position 0. -/
def leadRun (line : Str) : Str := line.takeWhile isSpecial

/-- The maximal run of special characters at the end of `line`. -/
def rawTrailRun (line : Str) : Str := (line.reverse.takeWhile isSpecial).reverse

/-- The trailing special run of `l` when it is preceded by a non-special
character, else `""`: a match of `[^S]([S]*)$` with `$` taken at the very
end of `l` must place a non-special character directly before a run of
special characters that reaches the end, so the unique anchor is the last
non-special character; when `l` consists entirely of special characters
(in particular when it is empty) there is no such match. -/
def anchoredTrailRun (l : Str) : Str :=
  if (rawTrailRun l).length = l.length then [] else rawTrailRun l

/-- The group of `re.search(f"[^{SPECIAL_CHARS_RE_SET}]([{SPECIAL_CHARS_RE_SET}]*)$", line)`
(fixer.py line 115), with `""` substituted when there is no match
(fixer.py line 117).  Python `$` (without `re.M`) matches at the end of
the string and also just before a newline that is its last character, and
the newline character is not in the special class; so for a line ending
in `"\n"` the leftmost match anchors within `line[:-1]` (or, when
`line[:-1]` is entirely special, at the newline itself, with an empty
group), and the group is the anchored trailing run of `line[:-1]`.  For
any other line only the end-of-string anchor is available. -/
def trailRun (line : Str) : Str :=
  if line.getLast? = some '\n' then anchoredTrailRun line.dropLast
  else anchoredTrailRun line

/-- Python `s.endswith(pat)`. -/
def endswith (s pat : Str) : Bool := s.drop (s.length - pat.length) == pat

/-- The ad-hoc rewrite of fixer.py lines 120-121: if the suffix ends with
`" -"` it becomes `suffix[:-2] + "- "`. -/
def dashFix (s : Str) : Str :=
  if endswith s [' ', '-'] then s.take (s.length - 2) ++ ['-', ' '] else s

/-- Python slice `l[a:b]` for `0 ≤ a` and `0 ≤ b`: the elements with
index in `[a, b)`; empty when `b ≤ a`. -/
def pySlice (l : Str) (a b : Nat) : Str := (l.take b).drop a

/-- fixer.py lines 113-123: compute the leading and trailing special
runs, apply the dash rewrite to the trailing run, and return
`suffix + line[len(prefix):len(line)-len(suffix)] + prefix` (the slice
uses the length of the rewritten suffix, which the rewrite preserves). -/
def fix_line (line : Str) : Str :=
  let p := leadRun line
  let s := dashFix (trailRun line)
  s ++ pySlice line p.length (line.length - s.length) ++ p

/-- `line` with a single trailing newline removed, if it has one: the
part of `line` in which Python `$` can anchor a match. -/
def trimNl (line : Str) : Str :=
  if line.getLast? = some '\n' then line.dropLast else line

/-- Spec 4.2 step 1, stated from the words of the spec: `p` is the
longest run of special characters starting at position 0 of `line`. -/
def LongestLeadRun (p line : Str) : Prop :=
  (∃ t, line = p ++ t) ∧ (∀ c ∈ p, isSpecial c = true) ∧
    ∀ q, (∃ t, line = q ++ t) → (∀ c ∈ q, isSpecial c = true) →
      q.length ≤ p.length

/-- Spec 4.2 step 2, stated from the words of the spec: `s` is the run
of special characters that follows the last non-special character of
`line`; if `line` is entirely special characters (or empty), `s` is
empty.  (A line ending in a non-special character gets `s = []` through
the first disjunct, with that character as the anchor.) -/
def TrailRunSpec (s line : Str) : Prop :=
  (∃ t c, line = t ++ c :: s ∧ isSpecial c = false ∧
    ∀ x ∈ s, isSpecial x = true) ∨
  ((∀ c ∈ line, isSpecial c = true) ∧ s = [])

/-- The `SrtLine` namedtuple (fixer.py line 5). -/
structure SrtLine where
  sequence : Str
  timing : Str
  text : List Str
deriving DecidableEq

/-- The three parser states (fixer.py lines 38-40). -/
inductive PState where
  | seq
  | timing
  | text
deriving DecidableEq

/-- The mutable fields of `SrtParser` (fixer.py lines 42-47). -/
structure ParserState where
  curSeq : Str
  curTiming : Str
  curText : List Str
  state : PState
  out : List SrtLine
deriving DecidableEq

/-- `SrtParser.__init__` (fixer.py lines 42-47). -/
def initParser : ParserState := ⟨[], [], [], PState.seq, []⟩

/-- Python `str.isspace` for a single character: the Unicode whitespace
code points U+0009-U+000D, U+001C-U+001F, U+0020, U+0085, U+00A0,
U+1680, U+2000-U+200A, U+2028, U+2029, U+202F, U+205F, U+3000. -/
def pyIsSpace (c : Char) : Bool :=
  decide ((9 ≤ c.toNat ∧ c.toNat ≤ 13) ∨ (28 ≤ c.toNat ∧ c.toNat ≤ 31) ∨
    c.toNat = 32 ∨ c.toNat = 133 ∨ c.toNat = 160 ∨ c.toNat = 5760 ∨
    (8192 ≤ c.toNat ∧ c.toNat ≤ 8202) ∨ c.toNat = 8232 ∨ c.toNat = 8233 ∨
    c.toNat = 8239 ∨ c.toNat = 8287 ∨ c.toNat = 12288)

/-- Python `line.strip() == ""` (fixer.py line 66): true iff every
character of the line is whitespace (in particular for the empty line). -/
def isBlank (line : Str) : Bool := line.all pyIsSpace

/-- `SrtParser._handle_line` together with the three state handlers
(fixer.py lines 49-71).  In state `text`, a blank line appends the
accumulated block to the output and resets to state `seq`; a non-blank
line is appended to the current text. -/
def handle_line (p : ParserState) (line : Str) : ParserState :=
  match p.state with
  | PState.seq => { p with curSeq := line, state := PState.timing }
  | PState.timing => { p with curTiming := line, state := PState.text }
  | PState.text =>
    if isBlank line then
      { p with out := p.out ++ [⟨p.curSeq, p.curTiming, p.curText⟩],
               curText := [], state := PState.seq }
    else
      { p with curText := p.curText ++ [line] }

/-- `SrtParser.parse_lines` (fixer.py lines 73-81): feed every line to
the handler; if the input ends in state `text`, flush the in-progress
block by handling an empty line (the code calls `_handle_text("")`
directly, which coincides with `_handle_line("")` in that state). -/
def parse_lines (lines : List Str) : List SrtLine :=
  let p := lines.foldl handle_line initParser
  let q := if p.state = PState.text then handle_line p [] else p
  q.out

/-- The finalization step of `parse_lines` (fixer.py lines 77-81),
factored out for the proofs: flush the in-progress block when the input
ended in the text state, then read off the collected blocks. -/
def parse_finish (p : ParserState) : List SrtLine :=
  (if p.state = PState.text then handle_line p [] else p).out

/-- Each line followed by a newline character, concatenated. -/
def joinNl (ls : List Str) : Str := (ls.map (fun l => l ++ ['\n'])).flatten

/-- The text `SrtWriter.write_lines` emits for one block (fixer.py lines
94-98): sequence, newline, timing, newline, then each text line followed
by a newline. -/
def writeBlock (sub : SrtLine) : Str :=
  sub.sequence ++ ['\n'] ++ sub.timing ++ ['\n'] ++ joinNl sub.text

/-- The full text `SrtWriter.write_lines` emits (fixer.py lines 92-101):
the blocks in order, with one extra separator newline after every block
except the last. -/
def write_lines : List SrtLine → Str
  | [] => []
  | [sub] => writeBlock sub
  | sub :: rest => writeBlock sub ++ ['\n'] ++ write_lines rest

/-- The line-boundary characters of Python `str.splitlines`: U+000A-U+000D,
U+001C-U+001E, U+0085, U+2028, U+2029 (with `"\r\n"` counting as a single
boundary, handled in `splitlinesAux`). -/
def isLineBreak (c : Char) : Bool :=
  decide (c.toNat = 10 ∨ c.toNat = 11 ∨ c.toNat = 12 ∨ c.toNat = 13 ∨
    c.toNat = 28 ∨ c.toNat = 29 ∨ c.toNat = 30 ∨ c.toNat = 133 ∨
    c.toNat = 8232 ∨ c.toNat = 8233)

/-- Worker for `splitlines`; `cur` is the reversed current line and
`wasCR` records that the previous character was a carriage return whose
boundary has already been emitted, so that a newline directly after it
is swallowed (`"\r\n"` is a single boundary). -/
def splitlinesAux : Str → Str → Bool → List Str
  | [], cur, _ => if cur = [] then [] else [cur.reverse]
  | c :: rest, cur, wasCR =>
    if wasCR = true ∧ c = '\n' then splitlinesAux rest [] false
    else if c = '\r' then cur.reverse :: splitlinesAux rest [] true
    else if isLineBreak c then cur.reverse :: splitlinesAux rest [] false
    else splitlinesAux rest (c :: cur) false

/-- Python `content.splitlines()` (fixer.py lines 23 and 31): split at
the line-boundary characters, treating `"\r\n"` as one boundary and not
emitting a final empty line for a trailing boundary. -/
def splitlines (s : Str) : List Str := splitlinesAux s [] false

/-- No character of `l` is a `splitlines` line boundary. -/
def noBreak (l : Str) : Prop := ∀ c ∈ l, isLineBreak c = false

/-- The hypotheses under which a block survives the writer-to-parser
round trip: its labels and text lines contain no line-boundary
characters and its text lines are not blank. -/
def goodBlock (b : SrtLine) : Prop :=
  noBreak b.sequence ∧ noBreak b.timing ∧
    ∀ l ∈ b.text, noBreak l ∧ isBlank l = false

instance (l : Str) : Decidable (noBreak l) := by
  unfold noBreak
  infer_instance

instance (b : SrtLine) : Decidable (goodBlock b) := by
  unfold goodBlock
  infer_instance

/-- The line sequence the writer's output splits into: for each block
its sequence, timing and text lines, with one empty separator line
between consecutive blocks. -/
def linesOf : List SrtLine → List Str
  | [] => []
  | [b] => b.sequence :: b.timing :: b.text
  | b :: rest => b.sequence :: b.timing :: (b.text ++ [[]] ++ linesOf rest)

/-- The parser invariant behind claim C8: every emitted block's text
lines are non-blank, and so are the lines accumulated so far. -/
def ParserInv (p : ParserState) : Prop :=
  (∀ b ∈ p.out, ∀ t ∈ b.text, isBlank t = false) ∧
    ∀ t ∈ p.curText, isBlank t = false

/-- The possible outcomes of `get_file_lines`: a list of lines, the
tool's own `DecodeError` (fixer.py line 33), or an uncaught
`UnicodeDecodeError` escaping from the second `open`/`read`
(fixer.py lines 28-29), which is outside any `try`. -/
inductive GetFileOutcome where
  | ok (lines : List Str)
  | decodeError
  | unicodeDecodeError
deriving DecidableEq

/-- The Hebrew letter yod, the sanity-check character of fixer.py
lines 22 and 30. -/
def yod : Char := Char.ofNat 1497

/-- The cp1255 branch of `get_file_lines` (fixer.py lines 28-33),
parametrised on the result of decoding the file as cp1255 (`none` models
a `UnicodeDecodeError` raised by the read, which propagates uncaught).
Python's `"י" in content` is one-character substring containment, i.e.
character membership. -/
def cp1255Step (decoded : Option Str) : GetFileOutcome :=
  match decoded with
  | none => GetFileOutcome.unicodeDecodeError
  | some content =>
    if yod ∈ content then GetFileOutcome.ok (splitlines content)
    else GetFileOutcome.decodeError

/-- `get_file_lines` (fixer.py lines 18-33), parametrised on the results
of decoding the file as UTF-8 and as cp1255 (`none` models a
`UnicodeDecodeError` from the corresponding read).  A UTF-8
`UnicodeDecodeError` is caught and control falls to the cp1255 branch;
a UTF-8 decode that succeeds without containing yod also falls through
to the cp1255 branch, because the `try` body just ends without
returning. -/
def get_file_lines (utf8 : Option Str) (cp1255 : Option Str) : GetFileOutcome :=
  match utf8 with
  | some content =>
    if yod ∈ content then GetFileOutcome.ok (splitlines content)
    else cp1255Step cp1255
  | none => cp1255Step cp1255

/-- The body of the loop of `fix_subtitles` for one block (fixer.py
lines 129-136): map `fix_line` over the text, keep sequence and timing. -/
def fixBlock (sub : SrtLine) : SrtLine :=
  ⟨sub.sequence, sub.timing, sub.text.map fix_line⟩

/-- `fix_subtitles` (fixer.py lines 126-138): the loop appends the fixed
block for each input block to an initially empty list. -/
def fix_subtitles (subtitles : List SrtLine) : List SrtLine :=
  subtitles.foldl (fun acc sub => acc ++ [fixBlock sub]) []

/-! ## Structure of the special-character runs -/

theorem rawTrailRun_eq_rtakeWhile (l : Str) :
    rawTrailRun l = l.rtakeWhile isSpecial := rfl

theorem mem_rawTrailRun (l : Str) : ∀ x ∈ rawTrailRun l, isSpecial x = true := by
  intro x hx
  rw [rawTrailRun_eq_rtakeWhile] at hx
  exact List.mem_rtakeWhile_imp hx

theorem rawTrailRun_suffix (l : Str) : rawTrailRun l <:+ l := by
  rw [rawTrailRun_eq_rtakeWhile]
  exact List.rtakeWhile_suffix isSpecial l

/-- Peeling the maximal trailing special run off `l` leaves `l.rdropWhile`. -/
theorem rdropWhile_append_rawTrailRun (l : Str) :
    l.rdropWhile isSpecial ++ rawTrailRun l = l := by
  rw [rawTrailRun_eq_rtakeWhile, List.rdropWhile, List.rtakeWhile,
    ← List.reverse_append, List.takeWhile_append_dropWhile, List.reverse_reverse]

theorem rawTrailRun_length_eq_iff (l : Str) :
    (rawTrailRun l).length = l.length ↔ ∀ x ∈ l, isSpecial x = true := by
  constructor
  · intro h x hx
    have heq : rawTrailRun l = l := (rawTrailRun_suffix l).sublist.eq_of_length h
    exact mem_rawTrailRun l x (by rw [heq]; exact hx)
  · intro h
    rw [rawTrailRun_eq_rtakeWhile, List.rtakeWhile_eq_self_iff.mpr h]

theorem anchoredTrailRun_all_special (l : Str) (h : ∀ x ∈ l, isSpecial x = true) :
    anchoredTrailRun l = [] := by
  rw [anchoredTrailRun, if_pos ((rawTrailRun_length_eq_iff l).mpr h)]

theorem anchoredTrailRun_eq_raw (l : Str) (h : ¬ ∀ x ∈ l, isSpecial x = true) :
    anchoredTrailRun l = rawTrailRun l := by
  rw [anchoredTrailRun, if_neg (fun he => h ((rawTrailRun_length_eq_iff l).mp he))]

/-- The group computed by the suffix regex satisfies the specification
wording of spec 4.2 step 2 (relative to the string the regex ran on). -/
theorem anchoredTrailRun_spec (l : Str) : TrailRunSpec (anchoredTrailRun l) l := by
  by_cases h : ∀ x ∈ l, isSpecial x = true
  · exact Or.inr ⟨h, anchoredTrailRun_all_special l h⟩
  · left
    have hval := anchoredTrailRun_eq_raw l h
    have hD : l.rdropWhile isSpecial ≠ [] := by
      intro hnil
      exact h fun x hx => List.rdropWhile_eq_nil_iff.mp hnil x hx
    refine ⟨(l.rdropWhile isSpecial).dropLast, (l.rdropWhile isSpecial).getLast hD,
      ?_, ?_, ?_⟩
    · rw [hval]
      conv_lhs => rw [← rdropWhile_append_rawTrailRun l,
        ← List.dropLast_append_getLast hD]
      simp
    · have := List.rdropWhile_last_not isSpecial l hD
      simpa using this
    · rw [hval]
      exact mem_rawTrailRun l

theorem mem_leadRun (l : Str) : ∀ c ∈ leadRun l, isSpecial c = true :=
  fun _ hc => List.mem_takeWhile_imp hc

theorem length_le_length_takeWhile (p : Char → Bool) :
    ∀ (q l t : Str), l = q ++ t → (∀ c ∈ q, p c = true) →
      q.length ≤ (l.takeWhile p).length
  | [], _, _, _, _ => Nat.zero_le _
  | c :: q', l, t, hl, hmem => by
    subst hl
    rw [List.cons_append, List.takeWhile_cons_of_pos (hmem c (List.mem_cons_self c q'))]
    simpa using length_le_length_takeWhile p q' (q' ++ t) t rfl
      fun x hx => hmem x (List.mem_cons_of_mem c hx)

/-- The group of the prefix regex satisfies the specification wording of
spec 4.2 step 1. -/
theorem leadRun_longest (l : Str) : LongestLeadRun (leadRun l) l := by
  refine ⟨⟨l.dropWhile isSpecial, (List.takeWhile_append_dropWhile isSpecial l).symm⟩,
    mem_leadRun l, ?_⟩
  intro q hq1 hq2
  obtain ⟨t, ht⟩ := hq1
  exact length_le_length_takeWhile isSpecial q l t ht hq2

theorem drop_length_takeWhile (p : Char → Bool) :
    ∀ l : Str, l.drop (l.takeWhile p).length = l.dropWhile p
  | [] => rfl
  | c :: l' => by
    by_cases h : p c
    · rw [List.takeWhile_cons_of_pos h, List.dropWhile_cons_of_pos h,
        List.length_cons, List.drop_succ_cons]
      exact drop_length_takeWhile p l'
    · rw [List.takeWhile_cons_of_neg h, List.dropWhile_cons_of_neg h]
      rfl

theorem takeWhile_append_of_ne (p : Char → Bool) :
    ∀ (d x : Str), (¬ ∀ c ∈ d, p c = true) → (d ++ x).takeWhile p = d.takeWhile p
  | [], _, h => absurd (by simp) h
  | c :: d', x, h => by
    by_cases hc : p c
    · rw [List.cons_append, List.takeWhile_cons_of_pos hc, List.takeWhile_cons_of_pos hc]
      have hd' : ¬ ∀ a ∈ d', p a = true := by
        intro hall
        refine h fun a ha => ?_
        rcases List.mem_cons.mp ha with h1 | h2
        · exact h1 ▸ hc
        · exact hall a h2
      rw [takeWhile_append_of_ne p d' x hd']
    · rw [List.cons_append, List.takeWhile_cons_of_neg hc, List.takeWhile_cons_of_neg hc]

/-- `line` decomposes as lead run, middle slice and anchored trailing
run: the two runs never overlap and the slice is exactly what is left. -/
theorem lead_core_trail (l : Str) :
    leadRun l ++ pySlice l (leadRun l).length (l.length - (anchoredTrailRun l).length)
      ++ anchoredTrailRun l = l := by
  by_cases h : ∀ x ∈ l, isSpecial x = true
  · rw [anchoredTrailRun_all_special l h,
      show leadRun l = l from List.takeWhile_eq_self_iff.mpr h]
    simp [pySlice]
  · have hval := anchoredTrailRun_eq_raw l h
    have hdec := rdropWhile_append_rawTrailRun l
    have hDnotall : ¬ ∀ c ∈ l.rdropWhile isSpecial, isSpecial c = true := by
      intro hall
      refine h fun x hx => ?_
      rw [← hdec] at hx
      rcases List.mem_append.mp hx with h1 | h2
      · exact hall x h1
      · exact mem_rawTrailRun l x h2
    have hlead : leadRun l = (l.rdropWhile isSpecial).takeWhile isSpecial := by
      conv_lhs => rw [leadRun, ← hdec]
      exact takeWhile_append_of_ne isSpecial (l.rdropWhile isSpecial) (rawTrailRun l) hDnotall
    rw [hval, pySlice, hlead]
    set D := l.rdropWhile isSpecial with hDdef
    set T := rawTrailRun l with hTdef
    rw [← hdec, show (D ++ T).length - T.length = D.length by
        rw [List.length_append, Nat.add_sub_cancel],
      List.take_left, drop_length_takeWhile, List.takeWhile_append_dropWhile]

/-! ## The dash rewrite -/

theorem endswith_dash_eq (s : Str) (h : endswith s [' ', '-'] = true) :
    s = s.take (s.length - 2) ++ [' ', '-'] := by
  have hd : s.drop (s.length - 2) = [' ', '-'] := by
    simpa [endswith] using h
  conv_lhs => rw [← List.take_append_drop (s.length - 2) s, hd]

theorem dashFix_length (s : Str) : (dashFix s).length = s.length := by
  by_cases h : endswith s [' ', '-'] = true
  · have he := congrArg List.length (endswith_dash_eq s h)
    rw [dashFix, if_pos h]
    simp only [List.length_append, List.length_take, List.length_cons,
      List.length_nil] at he ⊢
    omega
  · rw [dashFix, if_neg h]

theorem dashFix_perm (s : Str) : (dashFix s).Perm s := by
  by_cases h : endswith s [' ', '-'] = true
  · rw [dashFix, if_pos h]
    conv_rhs => rw [endswith_dash_eq s h]
    exact List.Perm.append_left _ (List.Perm.swap ' ' '-' [])
  · rw [dashFix, if_neg h]

/-! ## Unfolding fix_line -/

theorem fix_line_eq (line : Str) :
    fix_line line = dashFix (trailRun line) ++
      pySlice line (leadRun line).length (line.length - (trailRun line).length) ++
      leadRun line := by
  have h : fix_line line = dashFix (trailRun line) ++
      pySlice line (leadRun line).length
        (line.length - (dashFix (trailRun line)).length) ++ leadRun line := rfl
  rw [h, dashFix_length]

theorem trailRun_eq_trim (line : Str) :
    trailRun line = anchoredTrailRun (trimNl line) := by
  rw [trailRun, trimNl]
  by_cases h : line.getLast? = some '\n' <;> simp [h]

/-! ## Claim C2: the special-character set -/

/-- C2 (counterexample): the backslash character is not special — in the
raw regex string each backslash escapes the character after it, so no
literal backslash is a member of the character class. -/
theorem is_special_backslash_cex : isSpecial '\\' = false := by decide

/-- C2 (amended): a character is special iff it is one of the 24
characters `. , : ; ' ( ) - ? ! + = * & $ ^ % # @ ~ ` "` together
with the space and the forward slash — the backslash is not a member. -/
theorem is_special_set_characterization (ch : Char) :
    isSpecial ch = true ↔ ch ∈ (".,:;'()-?!+=*&$^%#@~`\" /").toList := by
  rw [show isSpecial ch
    = List.elem ch ((".,:;'()-?!+=*&$^%#@~`\" /").toList) from rfl]
  exact List.elem_iff

/-! ## Claim C9: fix_line is not idempotent -/

/-- C9: there is a string on which applying `fix_line` twice differs
from applying it once (the swapped runs get swapped back). -/
theorem fix_line_not_idempotent :
    ∃ s : Str, fix_line (fix_line s) ≠ fix_line s :=
  ⟨(".a").toList, by decide⟩

/-! ## Claim C3: the dash rewrite -/

/-- C3: if the computed trailing run ends in space-dash, its last two
characters are replaced by dash-space before reassembly; concretely, on
`"- Wait -"` the trailing run is `" -"`, the rewrite yields `"- "`, and
the result is `"- Wait- "`. -/
theorem fix_line_dash_rewrite :
    (∀ line : Str, endswith (trailRun line) [' ', '-'] = true →
      fix_line line =
        ((trailRun line).take ((trailRun line).length - 2) ++ ['-', ' ']) ++
          pySlice line (leadRun line).length (line.length - (trailRun line).length) ++
          leadRun line) ∧
    trailRun (("- Wait -").toList) = (" -").toList ∧
    dashFix (trailRun (("- Wait -").toList)) = ("- ").toList ∧
    fix_line (("- Wait -").toList) = ("- Wait- ").toList := by
  refine ⟨?_, by decide, by decide, by decide⟩
  intro line h
  rw [fix_line_eq line]
  congr 2
  rw [dashFix, if_pos h]

/-- C3 (witness): the general rewrite branch applied at `"- Wait -"`. -/
theorem fix_line_dash_rewrite_witness :
    fix_line (("- Wait -").toList) =
      ((trailRun (("- Wait -").toList)).take
          ((trailRun (("- Wait -").toList)).length - 2) ++ ['-', ' ']) ++
        pySlice (("- Wait -").toList) (leadRun (("- Wait -").toList)).length
          ((("- Wait -").toList).length - (trailRun (("- Wait -").toList)).length) ++
        leadRun (("- Wait -").toList) :=
  fix_line_dash_rewrite.1 (("- Wait -").toList) (by decide)

/-! ## Claim C4: the identity families -/

/-- C4 (counterexample): `"a.\n"` has no special character at either
end (both `a` and the newline are non-special), yet `fix_line` changes
it: Python `$` anchors before the final newline, producing suffix `"."`. -/
theorem fix_line_identity_cex :
    (("a.\n").toList).head? = some 'a' ∧ isSpecial 'a' = false ∧
    (("a.\n").toList).getLast? = some '\n' ∧ isSpecial '\n' = false ∧
    fix_line (("a.\n").toList) = (".a.").toList ∧
    fix_line (("a.\n").toList) ≠ ("a.\n").toList := by decide

/-- C4 (amended): `fix_line` is the identity on non-empty strings with
non-special characters at both ends as long as the last character is not
a newline, on strings made entirely of special characters, and on the
empty string. -/
theorem fix_line_identity_cases :
    (∀ (l : Str) (h : l ≠ []), isSpecial (l.head h) = false →
      isSpecial (l.getLast h) = false → l.getLast h ≠ '\n' → fix_line l = l) ∧
    (∀ l : Str, (∀ c ∈ l, isSpecial c = true) → fix_line l = l) ∧
    fix_line ([] : Str) = [] := by
  refine ⟨?_, ?_, by decide⟩
  · intro l h h1 h2 h3
    have hg : l.getLast? = some (l.getLast h) := List.getLast?_eq_getLast l h
    have hraw : rawTrailRun l = [] := by
      rw [rawTrailRun_eq_rtakeWhile]
      refine List.rtakeWhile_eq_nil_iff.mpr fun _ => ?_
      simp [h2]
    have htrail : trailRun l = [] := by
      rw [trailRun, if_neg (by rw [hg]; intro hc; exact h3 (by injection hc))]
      rw [anchoredTrailRun, hraw]
      rw [if_neg (by simpa using fun he => h (List.length_eq_zero.mp he.symm))]
    have hlead : leadRun l = [] := by
      match l, h with
      | c :: l', _ =>
        have : isSpecial c = false := by simpa using h1
        simp [leadRun, List.takeWhile_cons, this]
    rw [fix_line_eq, htrail, hlead]
    simp [dashFix, endswith, pySlice]
  · intro l h
    have hlead : leadRun l = l := List.takeWhile_eq_self_iff.mpr h
    have hglast : l.getLast? ≠ some '\n' := by
      match l with
      | [] => simp
      | c :: l' =>
        rw [List.getLast?_eq_getLast (c :: l') (by simp)]
        intro hc
        have hmem := h _ (List.getLast_mem (l := c :: l') (by simp))
        rw [show (c :: l').getLast (by simp) = '\n' by injection hc] at hmem
        exact absurd hmem (by decide)
    have htrail : trailRun l = [] := by
      rw [trailRun, if_neg hglast]
      exact anchoredTrailRun_all_special l h
    rw [fix_line_eq, htrail, hlead]
    simp [dashFix, endswith, pySlice]

/-- C4 (witness): both families at concrete inputs. -/
theorem fix_line_identity_cases_witness :
    fix_line (("abc").toList) = ("abc").toList ∧
    fix_line ((".,!").toList) = (".,!").toList :=
  ⟨fix_line_identity_cases.1 (("abc").toList) (by decide) (by decide) (by decide)
      (by decide),
    fix_line_identity_cases.2.1 ((".,!").toList) (by decide)⟩

/-! ## Claim C1: the full decomposition computed by fix_line -/

/-- C1 (counterexample): on `"a.\n"` the longest special lead run is
empty and the special run following the last non-special character of
the line (the newline) is empty, so the claimed equation predicts the
line unchanged; the code returns `".a."` instead, because Python `$`
also matches before the trailing newline. -/
theorem fix_line_swaps_runs_cex :
    LongestLeadRun [] (("a.\n").toList) ∧ TrailRunSpec [] (("a.\n").toList) ∧
    fix_line (("a.\n").toList) ≠
      dashFix [] ++ pySlice (("a.\n").toList) 0 ((("a.\n").toList).length - 0) ++
        ([] : Str) := by
  refine ⟨⟨⟨("a.\n").toList, rfl⟩, by simp, ?_⟩,
    Or.inl ⟨("a.").toList, '\n', by decide, by decide, by simp⟩, by decide⟩
  intro q hq1 hq2
  obtain ⟨t, ht⟩ := hq1
  match q, ht with
  | [], _ => simp
  | c :: q', ht =>
    rw [List.cons_append] at ht
    have hc : c = 'a' := by
      have := congrArg List.head? ht
      simpa using this.symm
    exact absurd (hc ▸ hq2 c (List.mem_cons_self c q')) (by decide)

/-- C1 (amended): for every line, `fix_line line` is
`dashFix s ++ core ++ p` where `p` is the longest special run at the
start of `line`, `s` is the special run following the last non-special
character of `line` after a single trailing newline (if any) is
discarded (Python `$` anchors before such a newline), and `core` is
`line` with its first `p.length` and last `s.length` characters
removed. -/
theorem fix_line_swaps_runs (line : Str) :
    ∃ p s, LongestLeadRun p line ∧ TrailRunSpec s (trimNl line) ∧
      fix_line line =
        dashFix s ++ pySlice line p.length (line.length - s.length) ++ p := by
  refine ⟨leadRun line, trailRun line, leadRun_longest line, ?_, fix_line_eq line⟩
  rw [trailRun_eq_trim]
  exact anchoredTrailRun_spec (trimNl line)

/-! ## Claim C10: fix_line permutes the characters of its input -/

/-- C10 (counterexample): `fix_line "a.\n" = ".a."` loses the newline
and duplicates the dot, so it is not a permutation of the input. -/
theorem fix_line_perm_cex :
    ¬ (fix_line (("a.\n").toList)).Perm (("a.\n").toList) := by decide

/-- C10 (amended): for every string that does not end in a newline, the
output of `fix_line` is a permutation of its characters: the two runs
never overlap and the dash rewrite only transposes two characters. -/
theorem fix_line_perm (line : Str) (h : line.getLast? ≠ some '\n') :
    (fix_line line).Perm line := by
  have htrail : trailRun line = anchoredTrailRun line := by rw [trailRun, if_neg h]
  rw [fix_line_eq, htrail]
  have h2 := lead_core_trail line
  set p := leadRun line
  set s := anchoredTrailRun line
  set m := pySlice line p.length (line.length - s.length)
  have e1 : (dashFix s ++ m ++ p).Perm (s ++ m ++ p) :=
    ((dashFix_perm s).append_right m).append_right p
  have e2 : (s ++ m ++ p).Perm (p ++ m ++ s) := by
    rw [List.perm_iff_count]
    intro a
    simp only [List.count_append]
    omega
  exact (e1.trans e2).trans (by rw [h2])

/-- C10 (witness): a concrete permutation instance. -/
theorem fix_line_perm_witness :
    (fix_line ((".abc!").toList)).Perm ((".abc!").toList) :=
  fix_line_perm ((".abc!").toList) (by decide)

/-! ## splitlines on writer output -/

theorem splitlinesAux_nl : ∀ (l : Str), noBreak l → ∀ (rest cur : Str),
    splitlinesAux (l ++ '\n' :: rest) cur false =
      (cur.reverse ++ l) :: splitlinesAux rest [] false
  | [], _, rest, cur => by
    simp [splitlinesAux, isLineBreak]
  | c :: l', hl, rest, cur => by
    have hc : isLineBreak c = false := hl c (List.mem_cons_self c l')
    have hcr : ¬ (c = '\r') := by
      intro h
      rw [h] at hc
      exact absurd hc (by decide)
    rw [List.cons_append, splitlinesAux, if_neg (by simp), if_neg hcr,
      if_neg (by simp [hc]),
      splitlinesAux_nl l' (fun x hx => hl x (List.mem_cons_of_mem c hx)) rest (c :: cur)]
    simp

theorem joinNl_cons (l : Str) (ls : List Str) :
    joinNl (l :: ls) = l ++ '\n' :: joinNl ls := by
  simp [joinNl]

theorem splitlines_joinNl_append :
    ∀ ls : List Str, (∀ l ∈ ls, noBreak l) → ∀ rest : Str,
      splitlinesAux (joinNl ls ++ rest) [] false = ls ++ splitlinesAux rest [] false
  | [], _, rest => by simp [joinNl]
  | l :: ls', h, rest => by
    rw [joinNl_cons, List.append_assoc, List.cons_append,
      splitlinesAux_nl l (h l (List.mem_cons_self l ls')) (joinNl ls' ++ rest) [],
      splitlines_joinNl_append ls' (fun x hx => h x (List.mem_cons_of_mem l hx)) rest]
    simp

/-! ## The writer's output, line by line -/

theorem writeBlock_eq (b : SrtLine) :
    writeBlock b = joinNl (b.sequence :: b.timing :: b.text) := by
  simp [writeBlock, joinNl]

theorem write_lines_cons (b : SrtLine) (r : SrtLine) (rs : List SrtLine) :
    write_lines (b :: r :: rs) = writeBlock b ++ ['\n'] ++ write_lines (r :: rs) := rfl

theorem linesOf_cons_cons (b r : SrtLine) (rs : List SrtLine) :
    linesOf (b :: r :: rs)
      = b.sequence :: b.timing :: (b.text ++ [[]] ++ linesOf (r :: rs)) := rfl

theorem splitlines_write_lines :
    ∀ blocks : List SrtLine, (∀ b ∈ blocks, goodBlock b) →
      splitlines (write_lines blocks) = linesOf blocks
  | [], _ => by simp [write_lines, linesOf, splitlines, splitlinesAux]
  | [b], h => by
    have hb := h b (List.mem_cons_self b [])
    have hnb : ∀ l ∈ b.sequence :: b.timing :: b.text, noBreak l := by
      intro l hl
      rcases List.mem_cons.mp hl with h1 | hl
      · exact h1 ▸ hb.1
      rcases List.mem_cons.mp hl with h2 | hl
      · exact h2 ▸ hb.2.1
      · exact (hb.2.2 l hl).1
    rw [linesOf, show write_lines [b] = writeBlock b from rfl, writeBlock_eq,
      splitlines, show joinNl (b.sequence :: b.timing :: b.text)
        = joinNl (b.sequence :: b.timing :: b.text) ++ [] by simp,
      splitlines_joinNl_append _ hnb []]
    simp [splitlinesAux]
  | b :: r :: rs, h => by
    have hb := h b (List.mem_cons_self b (r :: rs))
    have hnb : ∀ l ∈ b.sequence :: b.timing :: b.text, noBreak l := by
      intro l hl
      rcases List.mem_cons.mp hl with h1 | hl
      · exact h1 ▸ hb.1
      rcases List.mem_cons.mp hl with h2 | hl
      · exact h2 ▸ hb.2.1
      · exact (hb.2.2 l hl).1
    have ih := splitlines_write_lines (r :: rs)
      fun x hx => h x (List.mem_cons_of_mem b hx)
    rw [write_lines_cons, writeBlock_eq, splitlines, List.append_assoc,
      List.singleton_append,
      splitlines_joinNl_append _ hnb ('\n' :: write_lines (r :: rs)),
      show splitlinesAux ('\n' :: write_lines (r :: rs)) [] false
        = [] :: splitlinesAux (write_lines (r :: rs)) [] false by
          simpa using splitlinesAux_nl []
            (fun c hc => absurd hc (List.not_mem_nil c)) (write_lines (r :: rs)) []]
    rw [splitlines] at ih
    rw [ih, linesOf_cons_cons]
    simp

/-! ## The parser consuming those lines -/

theorem handle_line_text (st : ParserState) (hst : st.state = PState.text)
    (l : Str) (hbl : isBlank l = false) :
    handle_line st l = { st with curText := st.curText ++ [l] } := by
  rw [handle_line, hst, hbl]
  simp

theorem foldl_handle_text :
    ∀ txt : List Str, (∀ l ∈ txt, isBlank l = false) →
      ∀ st : ParserState, st.state = PState.text →
        txt.foldl handle_line st = { st with curText := st.curText ++ txt }
  | [], _, st, _ => by simp
  | l :: txt', h, st, hst => by
    rw [List.foldl_cons,
      handle_line_text st hst l (h l (List.mem_cons_self l txt')),
      foldl_handle_text txt' (fun x hx => h x (List.mem_cons_of_mem l hx))
        { st with curText := st.curText ++ [l] } hst]
    simp

theorem foldl_handle_block (b : SrtLine) (hb : ∀ l ∈ b.text, isBlank l = false)
    (s0 t0 : Str) (acc : List SrtLine) :
    ((b.sequence :: b.timing :: (b.text ++ [[]])).foldl handle_line
        (⟨s0, t0, [], PState.seq, acc⟩ : ParserState))
      = ⟨b.sequence, b.timing, [], PState.seq, acc ++ [b]⟩ := by
  rw [List.foldl_cons, List.foldl_cons,
    show handle_line (⟨s0, t0, [], PState.seq, acc⟩ : ParserState) b.sequence
      = ⟨b.sequence, t0, [], PState.timing, acc⟩ from rfl,
    show handle_line (⟨b.sequence, t0, [], PState.timing, acc⟩ : ParserState) b.timing
      = ⟨b.sequence, b.timing, [], PState.text, acc⟩ from rfl,
    List.foldl_append,
    foldl_handle_text b.text hb ⟨b.sequence, b.timing, [], PState.text, acc⟩ rfl]
  rfl

theorem parse_lines_eq_finish (lines : List Str) :
    parse_lines lines = parse_finish (lines.foldl handle_line initParser) := rfl

theorem parse_core :
    ∀ blocks : List SrtLine, (∀ b ∈ blocks, ∀ l ∈ b.text, isBlank l = false) →
      ∀ (s0 t0 : Str) (acc : List SrtLine),
        parse_finish ((linesOf blocks).foldl handle_line
            (⟨s0, t0, [], PState.seq, acc⟩ : ParserState))
          = acc ++ blocks
  | [], _, s0, t0, acc => by simp [linesOf, parse_finish]
  | [b], h, s0, t0, acc => by
    have hb := h b (List.mem_cons_self b [])
    rw [show linesOf [b] = b.sequence :: b.timing :: b.text from rfl,
      List.foldl_cons, List.foldl_cons,
      show handle_line (⟨s0, t0, [], PState.seq, acc⟩ : ParserState) b.sequence
        = ⟨b.sequence, t0, [], PState.timing, acc⟩ from rfl,
      show handle_line (⟨b.sequence, t0, [], PState.timing, acc⟩ : ParserState) b.timing
        = ⟨b.sequence, b.timing, [], PState.text, acc⟩ from rfl,
      foldl_handle_text b.text hb ⟨b.sequence, b.timing, [], PState.text, acc⟩ rfl]
    rfl
  | b :: r :: rs, h, s0, t0, acc => by
    have hb := h b (List.mem_cons_self b (r :: rs))
    have hlines : linesOf (b :: r :: rs)
        = (b.sequence :: b.timing :: (b.text ++ [[]])) ++ linesOf (r :: rs) := by
      rw [linesOf_cons_cons]
      simp
    rw [hlines, List.foldl_append, foldl_handle_block b hb s0 t0 acc,
      parse_core (r :: rs) (fun x hx l hl => h x (List.mem_cons_of_mem b hx) l hl)
        b.sequence b.timing (acc ++ [b])]
    simp

/-! ## Claim C5: the writer-parser round trip -/

/-- C5 (counterexample): a block whose single text line `"a\nb"` is
non-empty and not whitespace-only fails the round trip: the embedded
newline is serialized verbatim and the split turns it into two lines. -/
theorem writer_parser_roundtrip_cex :
    (("a\nb").toList ≠ [] ∧ isBlank (("a\nb").toList) = false) ∧
    parse_lines (splitlines (write_lines
        [⟨("1").toList, ("t").toList, [("a\nb").toList]⟩]))
      = [⟨("1").toList, ("t").toList, [("a").toList, ("b").toList]⟩] ∧
    parse_lines (splitlines (write_lines
        [⟨("1").toList, ("t").toList, [("a\nb").toList]⟩]))
      ≠ [⟨("1").toList, ("t").toList, [("a\nb").toList]⟩] := by decide

/-- C5 (amended): for every block list whose sequence and timing labels
and text lines contain no line-boundary characters, and whose text lines
are not blank, splitting the writer's serialized output into lines and
parsing reproduces the block list (the last block is recovered by the
end-of-input flush). -/
theorem writer_parser_roundtrip (blocks : List SrtLine)
    (h : ∀ b ∈ blocks, goodBlock b) :
    parse_lines (splitlines (write_lines blocks)) = blocks := by
  rw [splitlines_write_lines blocks h, parse_lines_eq_finish]
  have hcore := parse_core blocks (fun b hb l hl => ((h b hb).2.2 l hl).2) [] [] []
  simpa [initParser] using hcore

/-- C5 (witness): a concrete two-block round trip, including a block
with an empty separator recovered by the final flush. -/
theorem writer_parser_roundtrip_witness :
    parse_lines (splitlines (write_lines
        [⟨("1").toList, ("00:01 --> 00:02").toList, [("abc").toList]⟩,
         ⟨("2").toList, ("00:03 --> 00:04").toList,
            [("de").toList, ("f").toList]⟩]))
      = [⟨("1").toList, ("00:01 --> 00:02").toList, [("abc").toList]⟩,
         ⟨("2").toList, ("00:03 --> 00:04").toList,
            [("de").toList, ("f").toList]⟩] :=
  writer_parser_roundtrip
    [⟨("1").toList, ("00:01 --> 00:02").toList, [("abc").toList]⟩,
     ⟨("2").toList, ("00:03 --> 00:04").toList, [("de").toList, ("f").toList]⟩]
    (by decide)

/-! ## Claim C6: fix_subtitles maps fix_line and keeps the labels -/

theorem foldl_append_singleton (f : SrtLine → SrtLine) :
    ∀ (l acc : List SrtLine),
      l.foldl (fun a s => a ++ [f s]) acc = acc ++ l.map f
  | [], acc => by simp
  | s :: l', acc => by
    rw [List.foldl_cons, foldl_append_singleton f l' (acc ++ [f s])]
    simp

/-- C6: `fix_subtitles` preserves length and order, and at every index
the output block carries the input block's sequence and timing labels
unchanged with its text mapped element-wise through `fix_line`. -/
theorem fix_subtitles_maps_fix_line (subtitles : List SrtLine) (i : Nat) :
    (fix_subtitles subtitles).length = subtitles.length ∧
    (fix_subtitles subtitles)[i]? = (subtitles[i]?).map
      fun b => SrtLine.mk b.sequence b.timing (b.text.map fix_line) := by
  have hmap : fix_subtitles subtitles
      = subtitles.map fun b => SrtLine.mk b.sequence b.timing (b.text.map fix_line) := by
    rw [fix_subtitles, foldl_append_singleton _ subtitles []]
    rfl
  rw [hmap]
  exact ⟨List.length_map subtitles _, List.getElem?_map ..⟩

/-! ## Claim C7: the decoding fallback of get_file_lines -/

/-- C7 (counterexample): when both decodes fail, neither encoding path
yields yod-containing content, yet the outcome is not the tool's
`DecodeError`: the second `open`/`read` is outside any `try`, so its
`UnicodeDecodeError` propagates uncaught. -/
theorem get_file_lines_both_fail_cex :
    get_file_lines none none = GetFileOutcome.unicodeDecodeError ∧
    get_file_lines none none ≠ GetFileOutcome.decodeError := by decide

/-- C7 (amended): the UTF-8 decode is tried first, and its lines are
returned when it succeeds with yod present; otherwise (decode failure or
no yod) the cp1255 decode is consulted: `DecodeError` is raised exactly
when cp1255 decoding succeeds on yod-free content, an uncaught
`UnicodeDecodeError` escapes exactly when the cp1255 decode itself
fails, and otherwise the successfully decoded content is returned split
into lines. -/
theorem get_file_lines_outcome (utf8 cp1255 : Option Str) :
    (get_file_lines utf8 cp1255 = GetFileOutcome.decodeError ↔
      (∀ s, utf8 = some s → yod ∉ s) ∧ ∃ s, cp1255 = some s ∧ yod ∉ s) ∧
    (get_file_lines utf8 cp1255 = GetFileOutcome.unicodeDecodeError ↔
      (∀ s, utf8 = some s → yod ∉ s) ∧ cp1255 = none) ∧
    (∀ s, utf8 = some s → yod ∈ s →
      get_file_lines utf8 cp1255 = GetFileOutcome.ok (splitlines s)) ∧
    (∀ s, cp1255 = some s → yod ∈ s → (∀ t, utf8 = some t → yod ∉ t) →
      get_file_lines utf8 cp1255 = GetFileOutcome.ok (splitlines s)) := by
  match utf8, cp1255 with
  | none, none => simp [get_file_lines, cp1255Step]
  | none, some c =>
    by_cases hc : yod ∈ c <;> simp [get_file_lines, cp1255Step, hc]
  | some u, none =>
    by_cases hu : yod ∈ u <;> simp [get_file_lines, cp1255Step, hu]
  | some u, some c =>
    by_cases hu : yod ∈ u <;> by_cases hc : yod ∈ c <;>
      simp [get_file_lines, cp1255Step, hu, hc]

/-- C7 (witness): UTF-8 fails, cp1255 succeeds with yod present. -/
theorem get_file_lines_outcome_witness :
    get_file_lines none (some (("שיר").toList))
      = GetFileOutcome.ok [("שיר").toList] :=
  (get_file_lines_outcome none (some (("שיר").toList))).2.2.2 (("שיר").toList)
    rfl (by decide) (by intro t ht; cases ht)

/-! ## Claim C8: blocks emitted by the parser -/

/-- C8 (counterexample): a blank line directly after the timing line
emits a block whose text list is empty, so parsing can complete with an
empty-text block in the result. -/
theorem parse_lines_empty_text_cex :
    parse_lines [("1").toList, ("t").toList, []]
      = [⟨("1").toList, ("t").toList, []⟩] := by decide

theorem handle_line_inv (p : ParserState) (l : Str) (h : ParserInv p) :
    ParserInv (handle_line p l) := by
  obtain ⟨hout, hcur⟩ := h
  rw [handle_line]
  match hst : p.state with
  | PState.seq => exact ⟨hout, hcur⟩
  | PState.timing => exact ⟨hout, hcur⟩
  | PState.text =>
    by_cases hbl : isBlank l = true
    · rw [if_pos hbl]
      refine ⟨?_, by simp⟩
      intro b hb t ht
      rcases List.mem_append.mp hb with h1 | h2
      · exact hout b h1 t ht
      · rw [List.mem_singleton.mp h2] at ht
        exact hcur t ht
    · rw [if_neg hbl]
      refine ⟨hout, ?_⟩
      intro t ht
      rcases List.mem_append.mp ht with h1 | h2
      · exact hcur t h1
      · rw [List.mem_singleton.mp h2]
        exact Bool.not_eq_true _ ▸ hbl

theorem foldl_handle_inv :
    ∀ (lines : List Str) (p : ParserState), ParserInv p →
      ParserInv (lines.foldl handle_line p)
  | [], _, h => h
  | l :: ls, p, h =>
    foldl_handle_inv ls (handle_line p l) (handle_line_inv p l h)

/-- C8 (amended): every block in the parser's result has its labels set
and every line of its text is non-blank; but the text list itself can be
empty in the final result (a blank line or the end of input directly
after a timing line), so the non-emptiness part of the claim fails. -/
theorem parse_lines_text_nonblank (lines : List Str) :
    ∀ b ∈ parse_lines lines, ∀ t ∈ b.text, isBlank t = false := by
  have hinit : ParserInv initParser := ⟨by simp [initParser], by simp [initParser]⟩
  have hfold := foldl_handle_inv lines initParser hinit
  rw [parse_lines_eq_finish, parse_finish]
  by_cases hst : (lines.foldl handle_line initParser).state = PState.text
  · rw [if_pos hst]
    exact (handle_line_inv _ [] hfold).1
  · rw [if_neg hst]
    exact hfold.1

/-- C8 (witness): the invariant applied to a concrete parse. -/
theorem parse_lines_text_nonblank_witness :
    isBlank (("hello").toList) = false :=
  parse_lines_text_nonblank
    [("1").toList, ("t").toList, ("hello").toList]
    ⟨("1").toList, ("t").toList, [("hello").toList]⟩ (by decide)
    (("hello").toList) (by decide)

end RtlFixer
